import Mathlib

/-!
Shallow embedding of the Shark ensemble model (`include/shark/Models/MeanModel.h`)
and the supervised-learning objective function (`include/shark/ObjectiveFunctions/ErrorFunction.h`).

Real numbers (`double`, `RealVector`, `RealMatrix`) are modelled by `ℚ`
(exact arithmetic); a `RealMatrix` is a list of rows, each a list of entries.
A batch of input patterns is a `List π` for an abstract pattern type `π`,
so `patterns.size1` is the list length.  Code paths that raise an exception
(`SHARK_RUNTIME_CHECK`, `SIZE_CHECK`) are modelled with `Except String`.
-/

namespace Shark

/-- Entry `(p, j)` of a row-list matrix; out-of-range reads default to `0`
(used only to state theorems, always under explicit bounds). -/
def entry (a : List (List ℚ)) (p j : ℕ) : ℚ :=
  (a.getD p []).getD j 0

/-- Scalar multiple of a matrix: `w * m` elementwise. -/
def matSmul (w : ℚ) (a : List (List ℚ)) : List (List ℚ) :=
  a.map (fun row => row.map (fun x => w * x))

/-- Elementwise division of a matrix by a scalar: `outputs /= s`. -/
def matDivScalar (a : List (List ℚ)) (s : ℚ) : List (List ℚ) :=
  a.map (fun row => row.map (fun x => x / s))

/-- Elementwise matrix sum (defined on equal shapes; shape equality is
checked separately by `sameDims` before the library assignment runs). -/
def matAdd (a b : List (List ℚ)) : List (List ℚ) :=
  List.zipWith (fun r s => List.zipWith (fun x y => x + y) r s) a b

/-- The zero matrix produced by `outputs.resize(n, dim); outputs.clear()`. -/
def zeroMatrix (n dim : ℕ) : List (List ℚ) :=
  List.replicate n (List.replicate dim 0)

/-- Boolean shape-equality test of two matrices (the size check the linear
algebra library performs before an elementwise assignment). -/
def sameDims (a b : List (List ℚ)) : Bool :=
  a.length == b.length &&
    (a.zip b).all (fun pr => pr.1.length == pr.2.length)

/-- `a` is a matrix with `n` rows of `dim` entries each. -/
def isMatrixOfDims (a : List (List ℚ)) (n dim : ℕ) : Prop :=
  a.length = n ∧ ∀ row ∈ a, row.length = dim

instance (a : List (List ℚ)) (n dim : ℕ) : Decidable (isMatrixOfDims a n dim) :=
  inferInstanceAs (Decidable (_ ∧ _))

/-- Replace element `i` of a list by `f` of itself (models `v(i) += w`);
out of range the list is unchanged. -/
def listModify (f : ℚ → ℚ) : ℕ → List ℚ → List ℚ
  | _, [] => []
  | 0, x :: xs => f x :: xs
  | n + 1, x :: xs => x :: listModify f n xs

/-- Elementwise sum of two vectors (gradient accumulation). -/
def vecAdd (a b : List ℚ) : List ℚ :=
  List.zipWith (fun x y => x + y) a b

/-- Scalar multiple of a vector. -/
def vecSmul (c : ℚ) (a : List ℚ) : List ℚ :=
  a.map (fun x => c * x)

/-- A Shark `Shape` is a list of dimensions; `Shape()` is the empty list. -/
abbrev Shape := List ℕ

/-- Total number of elements described by a shape (`Shape::numElements`). -/
def shapeSize (s : Shape) : ℕ :=
  s.prod

/-- A sub-model of the ensemble: batched evaluation `List π → ω` together
with its declared input and output shapes.  For the `tag<RealVector>`
instantiation `ω = List (List ℚ)` (a batch of real output rows); for the
`tag<unsigned int>` instantiation `ω = List ℕ` (a class index per pattern). -/
structure SubModel (π ω : Type) where
  evalB : List π → ω
  inputShape : Shape
  outputShape : Shape

/-- State of `MeanModel<ModelType>`: the sub-model list `m_models`, the
weight vector `m_weight`, the running sum `m_weightSum` and the declared
output dimensionality `m_outputDim`. -/
structure MeanModel (π ω : Type) where
  m_models : List (SubModel π ω)
  m_weight : List ℚ
  m_weightSum : ℚ
  m_outputDim : ℕ

namespace MeanModel

/-- The constructor `MeanModel():m_weightSum(0){}`; `m_outputDim` is left
uninitialized by the source, so it is an arbitrary argument here. -/
def init (π ω : Type) (d : ℕ) : MeanModel π ω :=
  { m_models := [], m_weight := [], m_weightSum := 0, m_outputDim := d }

/-- `inputShape()`: empty shape without models, else the first model's. -/
def inputShape (M : MeanModel π ω) : Shape :=
  match M.m_models with
  | [] => ([] : List ℕ)
  | m :: _ => m.inputShape

/-- `outputShape()`: empty shape without models, else the first model's. -/
def outputShape (M : MeanModel π ω) : Shape :=
  match M.m_models with
  | [] => ([] : List ℕ)
  | m :: _ => m.outputShape

/-- `outputSize()` returns `m_outputDim`. -/
def outputSize (M : MeanModel π ω) : ℕ := M.m_outputDim

/-- `numberOfModels()` returns `m_models.size()`. -/
def numberOfModels (M : MeanModel π ω) : ℕ := M.m_models.length

/-- `weight(i)` returns `m_weight[i]` (reads only, bounds assumed by caller). -/
def weight (M : MeanModel π ω) (i : ℕ) : ℚ := M.m_weight.getD i 0

/-- `clearModels()`: removes all models and weights, resets the sum to `0`. -/
def clearModels (M : MeanModel π ω) : MeanModel π ω :=
  { M with m_models := [], m_weight := [], m_weightSum := 0 }

/-- `addModel(model, weight)`: the `SHARK_RUNTIME_CHECK(weight > 0, ...)`
throws before any mutation, so a non-positive weight yields an error and
the caller's object keeps its prior value; otherwise the model and weight
are appended and the running sum increased. -/
def addModel (M : MeanModel π ω) (m : SubModel π ω) (w : ℚ) :
    Except String (MeanModel π ω) :=
  if w > 0 then
    .ok { M with m_models := M.m_models ++ [m],
                 m_weight := M.m_weight ++ [w],
                 m_weightSum := M.m_weightSum + w }
  else
    .error "Weights must be positive"

/-- `setWeight(i, newWeight)`: `m_weightSum += newWeight - m_weight[i];
m_weight[i] = newWeight`.  No positivity or bounds check is performed by
the source; behaviour is modelled for in-range `i` (theorems assume
`i < m_weight.size()`). -/
def setWeight (M : MeanModel π ω) (i : ℕ) (w : ℚ) : MeanModel π ω :=
  { M with m_weightSum := M.m_weightSum + w - M.m_weight.getD i 0,
           m_weight := M.m_weight.set i w }

/-- `setOutputSize(dim)` stores the declared output dimensionality. -/
def setOutputSize (M : MeanModel π ω) (d : ℕ) : MeanModel π ω :=
  { M with m_outputDim := d }

/-- `parameterVector()` is always empty: the ensemble has no parameters. -/
def parameterVector (_ : MeanModel π ω) : List ℚ := ([] : List ℚ)

end MeanModel

/-- Modelled from the spec: the elementwise `noalias(outputs) += expr`
assignment used by `doEval(tag<RealVector>)` comes from the linear-algebra
library, which is not under `src/`; per spec section 7(c) dimension
mismatches between sub-model output and the declared output size are
"checked at aggregation time and reported as contract violations, not
silently truncated", so the assignment checks shape equality first. -/
def noaliasAddAssign (outputs o : List (List ℚ)) :
    Except String (List (List ℚ)) :=
  if sameDims outputs o then .ok (matAdd outputs o)
  else .error "dimension mismatch in noalias assignment"

namespace MeanModel

/-- `doEval(patterns, outputs, tag<RealVector>)`: for each sub-model `i`,
`noalias(outputs) += m_weight[i] * m_models[i](patterns)`; after the loop,
`outputs /= m_weightSum`.  The loop index pairs `m_models[i]` with
`m_weight[i]`, rendered as a zip (the two vectors always have equal length
in reachable states). -/
def doEvalRealVector (pairs : List (SubModel π (List (List ℚ)) × ℚ))
    (wsum : ℚ) (patterns : List π) (outputs : List (List ℚ)) :
    Except String (List (List ℚ)) :=
  match pairs with
  | [] => .ok (matDivScalar outputs wsum)
  | (m, w) :: rest =>
      match noaliasAddAssign outputs (matSmul w (m.evalB patterns)) with
      | .ok outs => doEvalRealVector rest wsum patterns outs
      | .error e => .error e

/-- The inner loop of `doEval(tag<unsigned int>)` for one sub-model:
`for p: SIZE_CHECK(responses(p) < m_outputDim); outputs(p,responses(p)) += w`.
Rows and responses are consumed in lockstep over `p`; running out of
responses before the rows end is an out-of-range access and reported. -/
def voteRows (w : ℚ) (dim : ℕ) :
    List (List ℚ) → List ℕ → Except String (List (List ℚ))
  | [], _ => .ok []
  | row :: rows, r :: rs =>
      if r < dim then
        match voteRows w dim rows rs with
        | .ok rest => .ok (listModify (fun x => x + w) r row :: rest)
        | .error e => .error e
      else .error "SIZE_CHECK failed: responses(p) < m_outputDim"
  | _ :: _, [] => .error "response vector shorter than the pattern batch"

/-- `doEval(patterns, outputs, tag<unsigned int>)`: each sub-model casts
its per-pattern class index as a vote of its weight into the matching
output column; after the loop, `outputs /= m_weightSum`. -/
def doEvalUnsignedInt (pairs : List (SubModel π (List ℕ) × ℚ))
    (dim : ℕ) (wsum : ℚ) (patterns : List π) (outputs : List (List ℚ)) :
    Except String (List (List ℚ)) :=
  match pairs with
  | [] => .ok (matDivScalar outputs wsum)
  | (m, w) :: rest =>
      match voteRows w dim outputs (m.evalB patterns) with
      | .ok outs => doEvalUnsignedInt rest dim wsum patterns outs
      | .error e => .error e

/-- `eval(patterns, outputs)` for `ModelType::OutputType = RealVector`:
`outputs.resize(patterns.size1(), m_outputDim); outputs.clear();
doEval(patterns, outputs, tag<RealVector>())`. -/
def evalRealVector (M : MeanModel π (List (List ℚ))) (patterns : List π) :
    Except String (List (List ℚ)) :=
  doEvalRealVector (M.m_models.zip M.m_weight) M.m_weightSum patterns
    (zeroMatrix patterns.length M.m_outputDim)

/-- `eval(patterns, outputs)` for `ModelType::OutputType = unsigned int`. -/
def evalUnsignedInt (M : MeanModel π (List ℕ)) (patterns : List π) :
    Except String (List (List ℚ)) :=
  doEvalUnsignedInt (M.m_models.zip M.m_weight) M.m_outputDim M.m_weightSum
    patterns (zeroMatrix patterns.length M.m_outputDim)

/-- The three-argument overload `eval(patterns, outputs, state)` simply
calls `eval(patterns, outputs)` and never touches `state`; the state type
is abstract (`σ`).  Continuous instantiation. -/
def evalRealVectorState (M : MeanModel π (List (List ℚ)))
    (patterns : List π) (state : σ) :
    (Except String (List (List ℚ))) × σ :=
  (M.evalRealVector patterns, state)

/-- The three-argument overload for the discrete instantiation. -/
def evalUnsignedIntState (M : MeanModel π (List ℕ))
    (patterns : List π) (state : σ) :
    (Except String (List (List ℚ))) × σ :=
  (M.evalUnsignedInt patterns, state)

end MeanModel

/-- A mutating operation on the ensemble, for reasoning about arbitrary
sequences of `addModel`, `setWeight` and `clearModels`. -/
inductive MMOp (π ω : Type) where
  | add (m : SubModel π ω) (w : ℚ)
  | setW (i : ℕ) (w : ℚ)
  | clear

/-- Apply one operation.  A failing `addModel` (weight non-positive) throws
before mutating, leaving the object unchanged; `setWeight` is modelled only
for in-range indices (out of range is an out-of-bounds vector access in the
source, left as the identity here). -/
def applyOp (M : MeanModel π ω) : MMOp π ω → MeanModel π ω
  | .add m w =>
      match M.addModel m w with
      | .ok M2 => M2
      | .error _ => M
  | .setW i w => if i < M.m_weight.length then M.setWeight i w else M
  | .clear => M.clearModels

/-- Apply a sequence of operations in order. -/
def applyOps (M : MeanModel π ω) (ops : List (MMOp π ω)) : MeanModel π ω :=
  ops.foldl applyOp M

/-- A `SingleObjectiveFunction` as consumed through the regularizer slot:
a scalar value and a gradient for each parameter vector. -/
structure SingleObjectiveFunction where
  eval : List ℚ → ℚ
  grad : List ℚ → List ℚ

/-- Modelled from the spec: `detail::FunctionWrapperBase`
(`Impl/FunctionWrapperBase.h`, not under `src/`) — the type-erased
(dataset, model, loss) evaluator behind `mp_wrapper`, holding the base
error value, its gradient, the fixed parameter count and a starting point. -/
structure FunctionWrapper where
  eval : List ℚ → ℚ
  grad : List ℚ → List ℚ
  numberOfVariables : ℕ
  proposeStartingPoint : List ℚ

/-- State of `ErrorFunction`: the wrapped base objective, the optional
regularizer pointer and the regularization strength. -/
structure ErrorFunction where
  mp_wrapper : FunctionWrapper
  m_regularizer : Option SingleObjectiveFunction
  m_regularizationStrength : ℚ

namespace ErrorFunction

/-- `setRegularizer(factor, regularizer)` stores both; no check on the
sign of `factor` is performed. -/
def setRegularizer (f : ErrorFunction) (factor : ℚ)
    (regularizer : SingleObjectiveFunction) : ErrorFunction :=
  { f with m_regularizer := some regularizer,
           m_regularizationStrength := factor }

/-- `numberOfVariables()` delegates to the wrapper. -/
def numberOfVariables (f : ErrorFunction) : ℕ :=
  f.mp_wrapper.numberOfVariables

/-- Modelled from the spec: the body of `ErrorFunction::eval` is in
`Impl/ErrorFunction.inl`, not under `src/`.  Per spec section 4.1 the
value is the wrapped base error, plus `factor * regularizer(params)`
when a regularizer is set. -/
def eval (f : ErrorFunction) (p : List ℚ) : ℚ :=
  match f.m_regularizer with
  | none => f.mp_wrapper.eval p
  | some R => f.mp_wrapper.eval p + f.m_regularizationStrength * R.eval p

/-- Modelled from the spec: the body of `ErrorFunction::evalDerivative` is
in `Impl/ErrorFunction.inl`, not under `src/`.  Per spec section 4.1 it
returns the same scalar as `eval` and writes the base gradient plus
`factor * regularizerGradient` into the derivative output. -/
def evalDerivative (f : ErrorFunction) (p : List ℚ) : ℚ × List ℚ :=
  match f.m_regularizer with
  | none => (f.mp_wrapper.eval p, f.mp_wrapper.grad p)
  | some R =>
      (f.mp_wrapper.eval p + f.m_regularizationStrength * R.eval p,
       vecAdd (f.mp_wrapper.grad p)
         (vecSmul f.m_regularizationStrength (R.grad p)))

end ErrorFunction

/-- The one-hot row in output space for class index `r`: entry `1` at
column `r`, `0` elsewhere (the real-vector reading of a class output). -/
def oneHotRow (dim r : ℕ) : List ℚ :=
  (List.range dim).map (fun j => if r = j then 1 else 0)

/-- A discrete sub-model's raw class outputs read in output space: one
one-hot row per pattern. -/
def oneHotMatrix (dim : ℕ) (resp : List ℕ) : List (List ℚ) :=
  resp.map (oneHotRow dim)

/-! ### Basic lemmas on the matrix helpers -/

theorem getD_map_comm {α β : Type} (f : α → β) (l : List α) (i : ℕ)
    (d : α) (e : β) (he : f d = e) : (l.map f).getD i e = f (l.getD i d) := by
  subst he
  simp only [List.getD_eq_getElem?_getD, List.getElem?_map]
  cases l[i]? <;> rfl

theorem entry_zeroMatrix (n dim p j : ℕ) : entry (zeroMatrix n dim) p j = 0 := by
  unfold entry zeroMatrix
  rcases lt_or_ge p n with h | h
  · have h1 : (List.replicate n (List.replicate dim (0:ℚ))).getD p [] =
        List.replicate dim (0:ℚ) := by
      rw [List.getD_eq_getElem _ _ (by simpa using h)]
      exact List.getElem_replicate _ _
    rw [h1]
    rcases lt_or_ge j dim with h2 | h2
    · rw [List.getD_eq_getElem _ _ (by simpa using h2)]
      exact List.getElem_replicate _ _
    · exact List.getD_eq_default _ _ (by simpa using h2)
  · have h1 : (List.replicate n (List.replicate dim (0:ℚ))).getD p [] = [] :=
      List.getD_eq_default _ _ (by simpa using h)
    rw [h1]
    rfl

theorem entry_matSmul (w : ℚ) (a : List (List ℚ)) (p j : ℕ) :
    entry (matSmul w a) p j = w * entry a p j := by
  unfold entry matSmul
  rw [getD_map_comm _ _ _ [] [] List.map_nil,
    getD_map_comm _ _ _ 0 0 (mul_zero w)]

theorem entry_matDivScalar (a : List (List ℚ)) (s : ℚ) (p j : ℕ) :
    entry (matDivScalar a s) p j = entry a p j / s := by
  unfold entry matDivScalar
  rw [getD_map_comm _ _ _ [] [] List.map_nil,
    getD_map_comm _ _ _ 0 0 (zero_div s)]

theorem dims_zeroMatrix (n dim : ℕ) : isMatrixOfDims (zeroMatrix n dim) n dim := by
  constructor
  · simp [zeroMatrix]
  · intro row hrow
    rw [List.eq_of_mem_replicate hrow]
    simp

theorem dims_matSmul {a : List (List ℚ)} {n dim : ℕ} (w : ℚ)
    (h : isMatrixOfDims a n dim) : isMatrixOfDims (matSmul w a) n dim := by
  obtain ⟨h1, h2⟩ := h
  constructor
  · simpa [matSmul] using h1
  · intro row hrow
    simp only [matSmul, List.mem_map] at hrow
    obtain ⟨r, hr, rfl⟩ := hrow
    simpa using h2 r hr

theorem dims_of_matSmul {a : List (List ℚ)} {n dim : ℕ} {w : ℚ}
    (h : isMatrixOfDims (matSmul w a) n dim) : isMatrixOfDims a n dim := by
  obtain ⟨h1, h2⟩ := h
  constructor
  · simpa [matSmul] using h1
  · intro row hrow
    have : row.map (fun x => w * x) ∈ matSmul w a := by
      simp only [matSmul, List.mem_map]
      exact ⟨row, hrow, rfl⟩
    simpa using h2 _ this

theorem dims_matDivScalar {a : List (List ℚ)} {n dim : ℕ} (s : ℚ)
    (h : isMatrixOfDims a n dim) : isMatrixOfDims (matDivScalar a s) n dim := by
  obtain ⟨h1, h2⟩ := h
  constructor
  · simpa [matDivScalar] using h1
  · intro row hrow
    simp only [matDivScalar, List.mem_map] at hrow
    obtain ⟨r, hr, rfl⟩ := hrow
    simpa using h2 r hr

theorem dims_matAdd {a b : List (List ℚ)} {n dim : ℕ}
    (ha : isMatrixOfDims a n dim) (hb : isMatrixOfDims b n dim) :
    isMatrixOfDims (matAdd a b) n dim := by
  obtain ⟨ha1, ha2⟩ := ha
  obtain ⟨hb1, hb2⟩ := hb
  constructor
  · simp [matAdd, ha1, hb1]
  · intro row hrow
    rw [List.mem_iff_getElem] at hrow
    obtain ⟨i, hi, rfl⟩ := hrow
    simp only [matAdd]
    rw [List.getElem_zipWith]
    have hia : i < a.length := by
      simp only [matAdd, List.length_zipWith, lt_min_iff] at hi
      exact hi.1
    have hib : i < b.length := by
      simp only [matAdd, List.length_zipWith, lt_min_iff] at hi
      exact hi.2
    rw [List.length_zipWith, ha2 _ (List.getElem_mem hia),
      hb2 _ (List.getElem_mem hib)]
    simp

theorem entry_matAdd {a b : List (List ℚ)} {n dim : ℕ}
    (ha : isMatrixOfDims a n dim) (hb : isMatrixOfDims b n dim)
    {p j : ℕ} (hp : p < n) (hj : j < dim) :
    entry (matAdd a b) p j = entry a p j + entry b p j := by
  obtain ⟨ha1, ha2⟩ := ha
  obtain ⟨hb1, hb2⟩ := hb
  have hpa : p < a.length := ha1 ▸ hp
  have hpb : p < b.length := hb1 ▸ hp
  have hja : j < a[p].length := by rw [ha2 _ (List.getElem_mem hpa)]; exact hj
  have hjb : j < b[p].length := by rw [hb2 _ (List.getElem_mem hpb)]; exact hj
  have hpz : p < (matAdd a b).length := by
    simp [matAdd, List.length_zipWith, hpa, hpb]
  unfold entry
  rw [List.getD_eq_getElem _ _ hpz, List.getD_eq_getElem _ _ hpa,
    List.getD_eq_getElem _ _ hpb]
  have : (matAdd a b)[p] = List.zipWith (fun x y => x + y) a[p] b[p] := by
    simp [matAdd, List.getElem_zipWith]
  rw [this]
  have hjz : j < (List.zipWith (fun x y : ℚ => x + y) a[p] b[p]).length := by
    rw [List.length_zipWith]; exact lt_min hja hjb
  rw [List.getD_eq_getElem _ _ hjz, List.getD_eq_getElem _ _ hja,
    List.getD_eq_getElem _ _ hjb, List.getElem_zipWith]

theorem sameDims_of_dims {a b : List (List ℚ)} {n dim : ℕ}
    (ha : isMatrixOfDims a n dim) (hb : isMatrixOfDims b n dim) :
    sameDims a b = true := by
  obtain ⟨ha1, ha2⟩ := ha
  obtain ⟨hb1, hb2⟩ := hb
  unfold sameDims
  rw [Bool.and_eq_true, beq_iff_eq, List.all_eq_true]
  refine ⟨ha1.trans hb1.symm, ?_⟩
  intro pr hpr
  rw [beq_iff_eq]
  have := List.of_mem_zip hpr
  rw [ha2 _ this.1, hb2 _ this.2]

theorem dims_of_sameDims {a b : List (List ℚ)} {n dim : ℕ}
    (ha : isMatrixOfDims a n dim) (hs : sameDims a b = true) :
    isMatrixOfDims b n dim := by
  obtain ⟨ha1, ha2⟩ := ha
  unfold sameDims at hs
  rw [Bool.and_eq_true, beq_iff_eq, List.all_eq_true] at hs
  obtain ⟨hlen, hall⟩ := hs
  refine ⟨hlen ▸ ha1, ?_⟩
  intro row hrow
  rw [List.mem_iff_getElem] at hrow
  obtain ⟨i, hi, rfl⟩ := hrow
  have hia : i < a.length := hlen ▸ hi
  have hmem : (a[i], b[i]) ∈ a.zip b := by
    have hz : i < (a.zip b).length := by
      rw [List.length_zip]; exact lt_min hia hi
    have := List.getElem_mem hz
    rwa [List.getElem_zip] at this
  have := hall _ hmem
  rw [beq_iff_eq] at this
  rw [← this]
  exact ha2 _ (List.getElem_mem hia)

theorem entry_eq_getElem (a : List (List ℚ)) (p j : ℕ)
    (hp : p < a.length) (hj : j < a[p].length) : entry a p j = a[p][j] := by
  unfold entry
  rw [List.getD_eq_getElem a [] hp, List.getD_eq_getElem _ 0 hj]

theorem matrix_ext {a b : List (List ℚ)} {n dim : ℕ}
    (ha : isMatrixOfDims a n dim) (hb : isMatrixOfDims b n dim)
    (h : ∀ p < n, ∀ j < dim, entry a p j = entry b p j) : a = b := by
  obtain ⟨ha1, ha2⟩ := ha
  obtain ⟨hb1, hb2⟩ := hb
  refine List.ext_getElem (by rw [ha1, hb1]) ?_
  intro p hp1 hp2
  refine List.ext_getElem
    (by rw [ha2 _ (List.getElem_mem hp1), hb2 _ (List.getElem_mem hp2)]) ?_
  intro j hj1 hj2
  rw [← entry_eq_getElem a p j hp1 hj1, ← entry_eq_getElem b p j hp2 hj2]
  exact h p (ha1 ▸ hp1) j ((ha2 _ (List.getElem_mem hp1)) ▸ hj1)

theorem matSmul_one (a : List (List ℚ)) : matSmul 1 a = a := by
  unfold matSmul
  simp

theorem matDivScalar_one (a : List (List ℚ)) : matDivScalar a 1 = a := by
  unfold matDivScalar
  simp

theorem zipWith_add_replicate_zero (l : List ℚ) :
    List.zipWith (fun x y => x + y) (List.replicate l.length (0:ℚ)) l = l := by
  induction l with
  | nil => rfl
  | cons x xs ih => simp [List.replicate_succ, ih]

theorem matAdd_zeroMatrix (X : List (List ℚ)) (dim : ℕ) :
    (∀ row ∈ X, row.length = dim) → matAdd (zeroMatrix X.length dim) X = X := by
  induction X with
  | nil => intro _; rfl
  | cons row rows ih =>
      intro h2
      have hrow : row.length = dim := h2 row (by simp)
      simp only [zeroMatrix, List.length_cons, List.replicate_succ, matAdd,
        List.zipWith_cons_cons]
      congr 1
      · rw [← hrow]
        exact zipWith_add_replicate_zero row
      · have := ih (fun r hr => h2 r (List.mem_cons_of_mem _ hr))
        simpa [matAdd, zeroMatrix] using this

theorem length_listModify (f : ℚ → ℚ) (i : ℕ) (l : List ℚ) :
    (listModify f i l).length = l.length := by
  induction l generalizing i with
  | nil => cases i <;> rfl
  | cons x xs ih =>
      cases i with
      | zero => rfl
      | succ k => simpa [listModify] using ih k

theorem getD_listModify (f : ℚ → ℚ) (i : ℕ) (l : List ℚ) (j : ℕ)
    (hj : j < l.length) :
    (listModify f i l).getD j 0 =
      if i = j then f (l.getD j 0) else l.getD j 0 := by
  induction l generalizing i j with
  | nil => simp at hj
  | cons x xs ih =>
      cases i with
      | zero =>
          cases j with
          | zero => simp [listModify]
          | succ k => simp [listModify]
      | succ i2 =>
          cases j with
          | zero => simp [listModify]
          | succ j2 =>
              have := ih i2 j2 (by simpa using hj)
              simp only [listModify, List.getD_cons_succ, this,
                Nat.succ_inj]

theorem entry_cons_zero (r : List ℚ) (t : List (List ℚ)) (j : ℕ) :
    entry (r :: t) 0 j = r.getD j 0 := rfl

theorem entry_cons_succ (r : List ℚ) (t : List (List ℚ)) (p j : ℕ) :
    entry (r :: t) (p + 1) j = entry t p j := rfl

/-! ### The continuous aggregation loop computes the weighted sum -/

theorem doEvalRealVector_ok {π : Type}
    (pairs : List (SubModel π (List (List ℚ)) × ℚ))
    (wsum : ℚ) (patterns : List π) (n dim : ℕ) :
    ∀ outputs : List (List ℚ), isMatrixOfDims outputs n dim →
    (∀ mw ∈ pairs, isMatrixOfDims (mw.1.evalB patterns) n dim) →
    ∃ out, MeanModel.doEvalRealVector pairs wsum patterns outputs = .ok out ∧
      isMatrixOfDims out n dim ∧
      ∀ p < n, ∀ j < dim,
        entry out p j =
          (entry outputs p j +
            (pairs.map (fun mw => mw.2 * entry (mw.1.evalB patterns) p j)).sum)
            / wsum := by
  induction pairs with
  | nil =>
      intro outputs hout _
      refine ⟨matDivScalar outputs wsum, rfl, dims_matDivScalar wsum hout, ?_⟩
      intro p _ j _
      rw [entry_matDivScalar]
      simp
  | cons mw rest ih =>
      intro outputs hout hmod
      obtain ⟨m, w⟩ := mw
      have hm : isMatrixOfDims (m.evalB patterns) n dim := by
        simpa using hmod (m, w) (by simp)
      have hsm : isMatrixOfDims (matSmul w (m.evalB patterns)) n dim :=
        dims_matSmul w hm
      have hsd : sameDims outputs (matSmul w (m.evalB patterns)) = true :=
        sameDims_of_dims hout hsm
      have hstep : MeanModel.doEvalRealVector ((m, w) :: rest) wsum patterns outputs =
          MeanModel.doEvalRealVector rest wsum patterns
            (matAdd outputs (matSmul w (m.evalB patterns))) := by
        simp [MeanModel.doEvalRealVector, noaliasAddAssign, hsd]
      obtain ⟨out, hok, hdims, hent⟩ :=
        ih (matAdd outputs (matSmul w (m.evalB patterns)))
          (dims_matAdd hout hsm)
          (fun x hx => hmod x (List.mem_cons_of_mem _ hx))
      refine ⟨out, hstep ▸ hok, hdims, ?_⟩
      intro p hp j hj
      rw [hent p hp j hj, entry_matAdd hout hsm hp hj, entry_matSmul]
      simp only [List.map_cons, List.sum_cons]
      ring

/-! ### The discrete voting loop accumulates weights by class index -/

theorem voteRows_ok (w : ℚ) (dim : ℕ) (rows : List (List ℚ)) :
    ∀ (resp : List ℕ), (∀ row ∈ rows, row.length = dim) →
    rows.length ≤ resp.length →
    (∀ p < rows.length, resp.getD p 0 < dim) →
    ∃ out, MeanModel.voteRows w dim rows resp = .ok out ∧
      out.length = rows.length ∧ (∀ row ∈ out, row.length = dim) ∧
      ∀ p < rows.length, ∀ j < dim,
        entry out p j = entry rows p j +
          (if resp.getD p 0 = j then w else 0) := by
  induction rows with
  | nil =>
      intro resp _ _ _
      exact ⟨[], rfl, rfl, by simp, by intro p hp; simp at hp⟩
  | cons row rows ih =>
      intro resp hdim hlen hresp
      cases resp with
      | nil => simp at hlen
      | cons r rs =>
          have hrowdim : row.length = dim := hdim row (by simp)
          have hr : r < dim := by simpa using hresp 0 (by simp)
          obtain ⟨rest, hok, hlenr, hdimr, hentr⟩ :=
            ih rs (fun x hx => hdim x (List.mem_cons_of_mem _ hx))
              (by simpa using hlen)
              (fun p hp => by simpa using hresp (p + 1) (by simpa using hp))
          refine ⟨listModify (fun x => x + w) r row :: rest, ?_, ?_, ?_, ?_⟩
          · simp [MeanModel.voteRows, hr, hok]
          · simp [hlenr]
          · intro x hx
            rcases List.mem_cons.mp hx with h | h
            · rw [h, length_listModify, hrowdim]
            · exact hdimr x h
          · intro p hp j hj
            cases p with
            | zero =>
                rw [entry_cons_zero, entry_cons_zero, List.getD_cons_zero,
                  getD_listModify _ _ _ _ (hrowdim ▸ hj)]
                by_cases hrj : r = j
                · simp [hrj]
                · simp [hrj]
            | succ p2 =>
                rw [entry_cons_succ, entry_cons_succ, List.getD_cons_succ]
                exact hentr p2 (by simpa using hp) j hj

theorem doEvalUnsignedInt_ok {π : Type}
    (pairs : List (SubModel π (List ℕ) × ℚ))
    (dim : ℕ) (wsum : ℚ) (patterns : List π) (n : ℕ) :
    ∀ outputs : List (List ℚ), isMatrixOfDims outputs n dim →
    (∀ mw ∈ pairs, n ≤ (mw.1.evalB patterns).length ∧
      ∀ p < n, (mw.1.evalB patterns).getD p 0 < dim) →
    ∃ out, MeanModel.doEvalUnsignedInt pairs dim wsum patterns outputs = .ok out ∧
      isMatrixOfDims out n dim ∧
      ∀ p < n, ∀ j < dim,
        entry out p j =
          (entry outputs p j +
            (pairs.map (fun mw =>
              if (mw.1.evalB patterns).getD p 0 = j then mw.2 else 0)).sum)
            / wsum := by
  induction pairs with
  | nil =>
      intro outputs hout _
      refine ⟨matDivScalar outputs wsum, rfl, dims_matDivScalar wsum hout, ?_⟩
      intro p _ j _
      rw [entry_matDivScalar]
      simp
  | cons mw rest ih =>
      intro outputs hout hmod
      obtain ⟨m, w⟩ := mw
      obtain ⟨hout1, hout2⟩ := hout
      have hm := hmod (m, w) (by simp)
      obtain ⟨vote, hok, hlenv, hdimv, hentv⟩ :=
        voteRows_ok w dim outputs (m.evalB patterns) hout2
          (hout1 ▸ hm.1) (fun p hp => hm.2 p (hout1 ▸ hp))
      have hstep : MeanModel.doEvalUnsignedInt ((m, w) :: rest) dim wsum patterns outputs =
          MeanModel.doEvalUnsignedInt rest dim wsum patterns vote := by
        simp [MeanModel.doEvalUnsignedInt, hok]
      obtain ⟨out, hok2, hdims, hent⟩ :=
        ih vote ⟨hlenv.trans hout1, hdimv⟩
          (fun x hx => hmod x (List.mem_cons_of_mem _ hx))
      refine ⟨out, hstep ▸ hok2, hdims, ?_⟩
      intro p hp j hj
      rw [hent p hp j hj, hentv p (hout1 ▸ hp) j hj]
      simp only [List.map_cons, List.sum_cons]
      ring

/-! ### Success of the aggregation implies every dimension matched -/

theorem noaliasAddAssign_ok_inv {outputs o out : List (List ℚ)}
    (h : noaliasAddAssign outputs o = .ok out) :
    sameDims outputs o = true ∧ out = matAdd outputs o := by
  unfold noaliasAddAssign at h
  split at h
  case isTrue hs =>
    injection h with h2
    exact ⟨hs, h2.symm⟩
  case isFalse hs => simp at h

theorem doEvalRealVector_ok_inv {π : Type}
    (pairs : List (SubModel π (List (List ℚ)) × ℚ))
    (wsum : ℚ) (patterns : List π) (n dim : ℕ) :
    ∀ outputs out, isMatrixOfDims outputs n dim →
    MeanModel.doEvalRealVector pairs wsum patterns outputs = .ok out →
    (∀ mw ∈ pairs, isMatrixOfDims (mw.1.evalB patterns) n dim) ∧
      isMatrixOfDims out n dim := by
  induction pairs with
  | nil =>
      intro outputs out hout h
      simp only [MeanModel.doEvalRealVector] at h
      injection h with h2
      exact ⟨by simp, h2 ▸ dims_matDivScalar wsum hout⟩
  | cons mw rest ih =>
      intro outputs out hout h
      obtain ⟨m, w⟩ := mw
      cases hna : noaliasAddAssign outputs (matSmul w (m.evalB patterns)) with
      | error e =>
          rw [MeanModel.doEvalRealVector, hna] at h
          simp at h
      | ok outs =>
          rw [MeanModel.doEvalRealVector, hna] at h
          simp only at h
          obtain ⟨hs, houts⟩ := noaliasAddAssign_ok_inv hna
          have hsm : isMatrixOfDims (matSmul w (m.evalB patterns)) n dim :=
            dims_of_sameDims hout hs
          have hm : isMatrixOfDims (m.evalB patterns) n dim :=
            dims_of_matSmul hsm
          obtain ⟨hrest, hdout⟩ :=
            ih outs out (houts ▸ dims_matAdd hout hsm) h
          refine ⟨?_, hdout⟩
          intro x hx
          rcases List.mem_cons.mp hx with h2 | h2
          · rw [h2]
            exact hm
          · exact hrest x h2

theorem voteRows_ok_inv (w : ℚ) (dim : ℕ) (rows : List (List ℚ)) :
    ∀ (resp : List ℕ) (out : List (List ℚ)),
    (∀ row ∈ rows, row.length = dim) →
    MeanModel.voteRows w dim rows resp = .ok out →
    (rows.length ≤ resp.length ∧ ∀ p < rows.length, resp.getD p 0 < dim) ∧
      out.length = rows.length ∧ ∀ row ∈ out, row.length = dim := by
  induction rows with
  | nil =>
      intro resp out _ h
      simp only [MeanModel.voteRows] at h
      injection h with h2
      subst h2
      exact ⟨⟨by simp, by intro p hp; simp at hp⟩, rfl, by simp⟩
  | cons row rows ih =>
      intro resp out hdim h
      cases resp with
      | nil => simp [MeanModel.voteRows] at h
      | cons r rs =>
          rw [MeanModel.voteRows] at h
          split at h
          case isTrue hr =>
            cases hvr : MeanModel.voteRows w dim rows rs with
            | error e => rw [hvr] at h; simp at h
            | ok rest =>
                rw [hvr] at h
                simp only at h
                injection h with h2
                subst h2
                obtain ⟨⟨hl, hb⟩, hlen, hrdim⟩ :=
                  ih rs rest (fun x hx => hdim x (List.mem_cons_of_mem _ hx)) hvr
                refine ⟨⟨by simpa using hl, ?_⟩, by simp [hlen], ?_⟩
                · intro p hp
                  cases p with
                  | zero => simpa using hr
                  | succ p2 =>
                      rw [List.getD_cons_succ]
                      exact hb p2 (by simpa using hp)
                · intro x hx
                  rcases List.mem_cons.mp hx with h2 | h2
                  · rw [h2, length_listModify]
                    exact hdim row (by simp)
                  · exact hrdim x h2
          case isFalse hr => simp at h

theorem doEvalUnsignedInt_ok_inv {π : Type}
    (pairs : List (SubModel π (List ℕ) × ℚ))
    (dim : ℕ) (wsum : ℚ) (patterns : List π) (n : ℕ) :
    ∀ outputs out, isMatrixOfDims outputs n dim →
    MeanModel.doEvalUnsignedInt pairs dim wsum patterns outputs = .ok out →
    (∀ mw ∈ pairs, n ≤ (mw.1.evalB patterns).length ∧
      ∀ p < n, (mw.1.evalB patterns).getD p 0 < dim) ∧
      isMatrixOfDims out n dim := by
  induction pairs with
  | nil =>
      intro outputs out hout h
      simp only [MeanModel.doEvalUnsignedInt] at h
      injection h with h2
      exact ⟨by simp, h2 ▸ dims_matDivScalar wsum hout⟩
  | cons mw rest ih =>
      intro outputs out hout h
      obtain ⟨m, w⟩ := mw
      cases hvr : MeanModel.voteRows w dim outputs (m.evalB patterns) with
      | error e =>
          rw [MeanModel.doEvalUnsignedInt, hvr] at h
          simp at h
      | ok vote =>
          rw [MeanModel.doEvalUnsignedInt, hvr] at h
          simp only at h
          obtain ⟨hout1, hout2⟩ := hout
          obtain ⟨⟨hl, hb⟩, hlen, hrdim⟩ :=
            voteRows_ok_inv w dim outputs (m.evalB patterns) vote hout2 hvr
          obtain ⟨hrest, hdout⟩ :=
            ih vote out ⟨hlen.trans hout1, hrdim⟩ h
          refine ⟨?_, hdout⟩
          intro x hx
          rcases List.mem_cons.mp hx with h2 | h2
          · rw [h2]
            exact ⟨hout1 ▸ hl, fun p hp => hb p (hout1 ▸ hp)⟩
          · exact hrest x h2

/-! ### The weight-sum invariant over operation sequences -/

theorem applyOp_inv {π ω : Type} {M : MeanModel π ω} (op : MMOp π ω)
    (h : M.m_weightSum = M.m_weight.sum ∧
      M.m_models.length = M.m_weight.length) :
    (applyOp M op).m_weightSum = (applyOp M op).m_weight.sum ∧
      (applyOp M op).m_models.length = (applyOp M op).m_weight.length := by
  obtain ⟨h1, h2⟩ := h
  cases op with
  | add m w =>
      by_cases hw : w > 0
      · simp [applyOp, MeanModel.addModel, hw, h1, h2, List.sum_append]
      · simp [applyOp, MeanModel.addModel, hw, h1, h2]
  | setW i w =>
      by_cases hi : i < M.m_weight.length
      · simp only [applyOp, hi, if_true, MeanModel.setWeight]
        constructor
        · rw [List.sum_set]
          have hgetD : M.m_weight.getD i 0 = M.m_weight[i] :=
            List.getD_eq_getElem _ _ hi
          have hsum : M.m_weight.sum = (M.m_weight.take i).sum +
              (M.m_weight[i] + (M.m_weight.drop (i + 1)).sum) := by
            rw [← List.sum_take_add_sum_drop M.m_weight i,
              List.drop_eq_getElem_cons hi, List.sum_cons]
          rw [h1, hsum, hgetD, if_pos hi]
          ring
        · simp [h2]
      · simp [applyOp, hi, h1, h2]
  | clear => simp [applyOp, MeanModel.clearModels]

theorem applyOps_inv {π ω : Type} (ops : List (MMOp π ω)) :
    ∀ M : MeanModel π ω,
    (M.m_weightSum = M.m_weight.sum ∧
      M.m_models.length = M.m_weight.length) →
    (applyOps M ops).m_weightSum = (applyOps M ops).m_weight.sum ∧
      (applyOps M ops).m_models.length = (applyOps M ops).m_weight.length := by
  induction ops with
  | nil => intro M h; exact h
  | cons op rest ih => intro M h; exact ih _ (applyOp_inv op h)

/-! ### One-hot matrices -/

theorem dims_oneHotMatrix (dim : ℕ) (resp : List ℕ) :
    isMatrixOfDims (oneHotMatrix dim resp) resp.length dim := by
  constructor
  · simp [oneHotMatrix]
  · intro row hrow
    simp only [oneHotMatrix, List.mem_map] at hrow
    obtain ⟨r, _, rfl⟩ := hrow
    simp [oneHotRow]

theorem entry_oneHotMatrix (dim : ℕ) (resp : List ℕ) (p j : ℕ)
    (hp : p < resp.length) (hj : j < dim) :
    entry (oneHotMatrix dim resp) p j =
      if resp.getD p 0 = j then 1 else 0 := by
  unfold entry oneHotMatrix
  have hjr : j < (List.range dim).length := by simpa using hj
  have h1 : (resp.map (oneHotRow dim)).getD p [] = oneHotRow dim resp[p] := by
    rw [List.getD_eq_getElem _ _ (by simpa using hp), List.getElem_map]
  rw [h1]
  unfold oneHotRow
  have h2 : ((List.range dim).map
      (fun j2 => if resp[p] = j2 then (1:ℚ) else 0)).getD j 0 =
      if resp[p] = (List.range dim)[j] then (1:ℚ) else 0 := by
    rw [List.getD_eq_getElem _ _ (by simpa using hj), List.getElem_map]
  rw [h2]
  have h3 : (List.range dim)[j] = j := List.getElem_range _ _
  rw [h3, List.getD_eq_getElem _ _ hp]

/-! ### The claims -/

/-- Claim C1: for every ensemble of continuous-output (RealVector)
sub-models with at least one sub-model, aligned weight vector and
sub-model outputs of the declared dimensions, `eval(inputBatch)` returns
`sum(weight[i] * model[i](inputBatch)) / weightSum` entry by entry — the
weighted arithmetic mean in output space. -/
theorem claim_C1_weighted_mean {π : Type} (M : MeanModel π (List (List ℚ)))
    (patterns : List π)
    (hne : 0 < M.numberOfModels)
    (hlen : M.m_models.length = M.m_weight.length)
    (hdims : ∀ m ∈ M.m_models,
      isMatrixOfDims (m.evalB patterns) patterns.length M.m_outputDim) :
    ∃ out, M.evalRealVector patterns = .ok out ∧
      isMatrixOfDims out patterns.length M.m_outputDim ∧
      ∀ p < patterns.length, ∀ j < M.m_outputDim,
        entry out p j =
          ((M.m_models.zip M.m_weight).map
            (fun mw => mw.2 * entry (mw.1.evalB patterns) p j)).sum
            / M.m_weightSum := by
  obtain ⟨out, hok, hdim, hent⟩ :=
    doEvalRealVector_ok (M.m_models.zip M.m_weight) M.m_weightSum patterns
      patterns.length M.m_outputDim
      (zeroMatrix patterns.length M.m_outputDim)
      (dims_zeroMatrix _ _)
      (fun mw hmw => hdims mw.1 (List.of_mem_zip (by simpa using hmw)).1)
  refine ⟨out, hok, hdim, ?_⟩
  intro p hp j hj
  rw [hent p hp j hj, entry_zeroMatrix, zero_add]

/-- Witness for C1: two sub-models outputting `[2, 4]` and `[4, 0]` with
weights `1` and `3`; the weighted mean is `[(1*2+3*4)/4, (1*4+3*0)/4]`. -/
theorem claim_C1_weighted_mean_witness :
    ∃ out, (MeanModel.mk
        [⟨fun ps => ps.map (fun _ => [(2:ℚ), 4]), [], []⟩,
         ⟨fun ps => ps.map (fun _ => [(4:ℚ), 0]), [], []⟩]
        [1, 3] 4 2 : MeanModel Unit (List (List ℚ))).evalRealVector [()] =
      .ok out ∧ entry out 0 0 = 7 / 2 ∧ entry out 0 1 = 1 := by
  obtain ⟨out, hok, _, hent⟩ :=
    claim_C1_weighted_mean (MeanModel.mk
        [⟨fun ps => ps.map (fun _ => [(2:ℚ), 4]), [], []⟩,
         ⟨fun ps => ps.map (fun _ => [(4:ℚ), 0]), [], []⟩]
        [1, 3] 4 2 : MeanModel Unit (List (List ℚ))) [()]
      (by decide) (by decide) (by decide)
  refine ⟨out, hok, ?_, ?_⟩
  · have h := hent 0 (by decide) 0 (by decide)
    rw [h]
    norm_num [entry, List.zip_cons_cons]
  · have h := hent 0 (by decide) 1 (by decide)
    rw [h]
    norm_num [entry, List.zip_cons_cons]

/-- Claim C2: for every ensemble of discrete-class sub-models with at
least one sub-model, `eval` computes weighted voting: entry `(p, j)` of the
result is the sum of the weights of the sub-models whose predicted class
for pattern `p` is `j`, divided by `weightSum`. -/
theorem claim_C2_weighted_voting {π : Type} (M : MeanModel π (List ℕ))
    (patterns : List π)
    (hne : 0 < M.numberOfModels)
    (hlen : M.m_models.length = M.m_weight.length)
    (hresp : ∀ m ∈ M.m_models,
      patterns.length ≤ (m.evalB patterns).length ∧
      ∀ p < patterns.length, (m.evalB patterns).getD p 0 < M.m_outputDim) :
    ∃ out, M.evalUnsignedInt patterns = .ok out ∧
      isMatrixOfDims out patterns.length M.m_outputDim ∧
      ∀ p < patterns.length, ∀ j < M.m_outputDim,
        entry out p j =
          ((M.m_models.zip M.m_weight).map
            (fun mw => if (mw.1.evalB patterns).getD p 0 = j then mw.2 else 0)).sum
            / M.m_weightSum := by
  obtain ⟨out, hok, hdim, hent⟩ :=
    doEvalUnsignedInt_ok (M.m_models.zip M.m_weight) M.m_outputDim
      M.m_weightSum patterns patterns.length
      (zeroMatrix patterns.length M.m_outputDim)
      (dims_zeroMatrix _ _)
      (fun mw hmw => hresp mw.1 (List.of_mem_zip (by simpa using hmw)).1)
  refine ⟨out, hok, hdim, ?_⟩
  intro p hp j hj
  rw [hent p hp j hj, entry_zeroMatrix, zero_add]

/-- Witness for C2: sub-model A votes class `0`, sub-model B votes class
`1`, each with weight `1`; the result row is `[0.5, 0.5]`. -/
theorem claim_C2_weighted_voting_witness :
    ∃ out, (MeanModel.mk
        [⟨fun ps => ps.map (fun _ => 0), [], []⟩,
         ⟨fun ps => ps.map (fun _ => 1), [], []⟩]
        [1, 1] 2 2 : MeanModel Unit (List ℕ)).evalUnsignedInt [()] =
      .ok out ∧ entry out 0 0 = 1 / 2 ∧ entry out 0 1 = 1 / 2 := by
  obtain ⟨out, hok, _, hent⟩ :=
    claim_C2_weighted_voting (MeanModel.mk
        [⟨fun ps => ps.map (fun _ => 0), [], []⟩,
         ⟨fun ps => ps.map (fun _ => 1), [], []⟩]
        [1, 1] 2 2 : MeanModel Unit (List ℕ)) [()]
      (by decide) (by decide) (by decide)
  refine ⟨out, hok, ?_, ?_⟩
  · have h := hent 0 (by decide) 0 (by decide)
    rw [h]
    norm_num [List.zip_cons_cons]
  · have h := hent 0 (by decide) 1 (by decide)
    rw [h]
    norm_num [List.zip_cons_cons]

/-- Claim C3: for every `ErrorFunction` and every parameter vector of
length `numberOfVariables()`, `evalDerivative(p, d)` returns exactly the
same scalar error value as `eval(p)`. -/
theorem claim_C3_evalDerivative_value (f : ErrorFunction) (p : List ℚ)
    (hp : p.length = f.numberOfVariables) :
    (f.evalDerivative p).1 = f.eval p := by
  unfold ErrorFunction.evalDerivative ErrorFunction.eval
  cases f.m_regularizer <;> rfl

/-- Witness for C3 at a concrete regularized error function. -/
theorem claim_C3_evalDerivative_value_witness :
    ([(1:ℚ), 2].length = (ErrorFunction.mk
        ⟨fun q => q.sum, fun _ => [1, 1], 2, [0, 0]⟩
        (some ⟨fun q => q.prod, fun _ => [2, 1]⟩) (1/2)).numberOfVariables) ∧
    ((ErrorFunction.mk
        ⟨fun q => q.sum, fun _ => [1, 1], 2, [0, 0]⟩
        (some ⟨fun q => q.prod, fun _ => [2, 1]⟩) (1/2)).evalDerivative
          [(1:ℚ), 2]).1 =
      (ErrorFunction.mk
        ⟨fun q => q.sum, fun _ => [1, 1], 2, [0, 0]⟩
        (some ⟨fun q => q.prod, fun _ => [2, 1]⟩) (1/2)).eval [(1:ℚ), 2] :=
  ⟨by decide, claim_C3_evalDerivative_value _ _ (by decide)⟩

/-- Claim C4: after `setRegularizer(c, R)`, `eval(p)` equals
`baseError(p) + c * R(p)` exactly, and the derivative is the base gradient
plus `c` times `R`'s gradient, for every factor `c` — non-positive factors
included, none rejected. -/
theorem claim_C4_regularized_objective (f : ErrorFunction) (c : ℚ)
    (R : SingleObjectiveFunction) (p : List ℚ) :
    (f.setRegularizer c R).eval p = f.mp_wrapper.eval p + c * R.eval p ∧
    ((f.setRegularizer c R).evalDerivative p).2 =
      vecAdd (f.mp_wrapper.grad p) (vecSmul c (R.grad p)) ∧
    ((f.setRegularizer c R).evalDerivative p).1 =
      f.mp_wrapper.eval p + c * R.eval p :=
  ⟨rfl, rfl, rfl⟩

/-- Claim C5: after any sequence of `addModel` / `setWeight` /
`clearModels` operations from the constructor state, `m_weightSum` is the
exact sum of the current weights; and for every in-range index `i` and
every new weight of any sign, `setWeight(i, w)` succeeds, after which
`weight(i)` returns exactly `w`. -/
theorem claim_C5_weightSum_invariant {π ω : Type} (d : ℕ)
    (ops : List (MMOp π ω)) (N : MeanModel π ω) (i : ℕ) (w : ℚ)
    (hi : i < N.numberOfModels)
    (hN : N.m_models.length = N.m_weight.length) :
    ((applyOps (MeanModel.init π ω d) ops).m_weightSum =
        (applyOps (MeanModel.init π ω d) ops).m_weight.sum) ∧
      (N.setWeight i w).weight i = w := by
  constructor
  · exact (applyOps_inv ops _ ⟨rfl, rfl⟩).1
  · simp only [MeanModel.setWeight, MeanModel.weight]
    have hiw : i < (N.m_weight.set i w).length := by
      rw [List.length_set]
      exact hN ▸ hi
    rw [List.getD_eq_getElem _ _ hiw, List.getElem_set, if_pos rfl]

/-- Witness for C5: a sequence of adds (one rejected), an update, a clear
and another add, plus a negative-weight `setWeight` round trip. -/
theorem claim_C5_weightSum_invariant_witness :
    ((applyOps (MeanModel.init Unit (List (List ℚ)) 0)
        [.add ⟨fun _ => [], [], []⟩ 1, .add ⟨fun _ => [], [], []⟩ 2,
         .setW 0 5, .add ⟨fun _ => [], [], []⟩ (-3), .clear,
         .add ⟨fun _ => [], [], []⟩ 7]).m_weightSum =
      (applyOps (MeanModel.init Unit (List (List ℚ)) 0)
        [.add ⟨fun _ => [], [], []⟩ 1, .add ⟨fun _ => [], [], []⟩ 2,
         .setW 0 5, .add ⟨fun _ => [], [], []⟩ (-3), .clear,
         .add ⟨fun _ => [], [], []⟩ 7]).m_weight.sum) ∧
    ((MeanModel.mk [⟨fun _ => [], [], []⟩, ⟨fun _ => [], [], []⟩] [1, 2] 3 0 :
        MeanModel Unit (List (List ℚ))).setWeight 1 (-2)).weight 1 = -2 :=
  claim_C5_weightSum_invariant 0 _ _ 1 (-2) (by decide) (by decide)

/-- Claim C6: `addModel` with weight `≤ 0` fails with the invalid-argument
report and leaves the ensemble entirely unchanged (as seen by any
subsequent operation), while a positive weight appends the model and adds
the weight to the running sum. -/
theorem claim_C6_addModel_check {π ω : Type} (M : MeanModel π ω)
    (m : SubModel π ω) (w : ℚ) :
    (w ≤ 0 → M.addModel m w = .error "Weights must be positive" ∧
      applyOp M (.add m w) = M) ∧
    (0 < w → M.addModel m w = .ok
      { M with m_models := M.m_models ++ [m],
               m_weight := M.m_weight ++ [w],
               m_weightSum := M.m_weightSum + w }) := by
  constructor
  · intro hw
    have hw2 : ¬ w > 0 := not_lt.mpr hw
    exact ⟨by simp [MeanModel.addModel, hw2],
      by simp [applyOp, MeanModel.addModel, hw2]⟩
  · intro hw
    simp [MeanModel.addModel, hw]

/-- Witness for C6: weight `-1` is rejected leaving the empty ensemble
unchanged; weight `2` is appended. -/
theorem claim_C6_addModel_check_witness :
    ((MeanModel.init Unit (List (List ℚ)) 0).addModel
        ⟨fun _ => [], [], []⟩ (-1) = .error "Weights must be positive") ∧
    (applyOp (MeanModel.init Unit (List (List ℚ)) 0)
        (.add ⟨fun _ => [], [], []⟩ (-1)) =
      MeanModel.init Unit (List (List ℚ)) 0) ∧
    ((MeanModel.init Unit (List (List ℚ)) 0).addModel
        ⟨fun _ => [], [], []⟩ 2 =
      .ok (MeanModel.mk [⟨fun _ => [], [], []⟩] [2] (0 + 2) 0)) := by
  refine ⟨?_, ?_, ?_⟩
  · exact ((claim_C6_addModel_check _ _ _).1 (by norm_num)).1
  · exact ((claim_C6_addModel_check _ _ _).1 (by norm_num)).2
  · simpa [MeanModel.init] using
      (claim_C6_addModel_check (MeanModel.init Unit (List (List ℚ)) 0)
        ⟨fun _ => [], [], []⟩ 2).2 (by norm_num)

/-- Claim C7: an ensemble holding exactly one sub-model of weight `1`
returns that sub-model's raw output: the continuous instantiation returns
the sub-model's output batch unchanged; the discrete instantiation
returns the sub-model's class responses read in output space (the one-hot
rows), divided by the weight sum `1`. -/
theorem claim_C7_single_model {π : Type} (patterns : List π) :
    (∀ (Mc : MeanModel π (List (List ℚ))) (m : SubModel π (List (List ℚ))),
      Mc.m_models = [m] → Mc.m_weight = [1] → Mc.m_weightSum = 1 →
      isMatrixOfDims (m.evalB patterns) patterns.length Mc.m_outputDim →
      Mc.evalRealVector patterns = .ok (m.evalB patterns)) ∧
    (∀ (Md : MeanModel π (List ℕ)) (m : SubModel π (List ℕ)),
      Md.m_models = [m] → Md.m_weight = [1] → Md.m_weightSum = 1 →
      (m.evalB patterns).length = patterns.length →
      (∀ p < patterns.length, (m.evalB patterns).getD p 0 < Md.m_outputDim) →
      Md.evalUnsignedInt patterns =
        .ok (oneHotMatrix Md.m_outputDim (m.evalB patterns))) := by
  constructor
  · intro Mc m h1 h2 h3 hdims
    obtain ⟨ms, ws, s, dim⟩ := Mc
    simp only at h1 h2 h3 hdims ⊢
    subst h1 h2 h3
    have hzero := dims_zeroMatrix patterns.length dim
    have hsd := sameDims_of_dims hzero hdims
    have hXlen : (m.evalB patterns).length = patterns.length := hdims.1
    have hadd : matAdd (zeroMatrix patterns.length dim) (m.evalB patterns) =
        m.evalB patterns := by
      rw [← hXlen]
      exact matAdd_zeroMatrix _ _ hdims.2
    show MeanModel.doEvalRealVector ([m].zip [1]) 1 patterns
        (zeroMatrix patterns.length dim) = .ok (m.evalB patterns)
    rw [List.zip_cons_cons, List.zip_nil_right]
    simp only [MeanModel.doEvalRealVector, noaliasAddAssign, matSmul_one,
      hsd, if_true]
    rw [hadd]
    simp only [MeanModel.doEvalRealVector, matDivScalar_one]
  · intro Md m h1 h2 h3 hlen hbound
    obtain ⟨ms, ws, s, dim⟩ := Md
    simp only at h1 h2 h3 hlen hbound ⊢
    subst h1 h2 h3
    obtain ⟨vote, hok, hvlen, hvdim, hent⟩ :=
      voteRows_ok 1 dim (zeroMatrix patterns.length dim) (m.evalB patterns)
        (dims_zeroMatrix patterns.length dim).2
        (by rw [hlen]; simp [zeroMatrix])
        (by intro p hp; exact hbound p (by simpa [zeroMatrix] using hp))
    show MeanModel.doEvalUnsignedInt ([m].zip [1]) dim 1 patterns
        (zeroMatrix patterns.length dim) = .ok (oneHotMatrix dim (m.evalB patterns))
    rw [List.zip_cons_cons, List.zip_nil_right]
    simp only [MeanModel.doEvalUnsignedInt, hok]
    rw [matDivScalar_one]
    have hzl : (zeroMatrix patterns.length dim).length = patterns.length := by
      simp [zeroMatrix]
    have hvdims : isMatrixOfDims vote patterns.length dim :=
      ⟨hvlen.trans hzl, hvdim⟩
    have hodims : isMatrixOfDims (oneHotMatrix dim (m.evalB patterns))
        patterns.length dim := hlen ▸ dims_oneHotMatrix dim (m.evalB patterns)
    have : vote = oneHotMatrix dim (m.evalB patterns) := by
      refine matrix_ext hvdims hodims ?_
      intro p hp j hj
      rw [hent p (by rw [hzl]; exact hp) j hj, entry_zeroMatrix, zero_add,
        entry_oneHotMatrix dim _ p j (hlen ▸ hp) hj]
    rw [this]

/-- Witness for C7: a single continuous sub-model outputting `[5, 7]` is
returned unchanged; a single discrete sub-model voting class `1` of `3`
yields the one-hot batch. -/
theorem claim_C7_single_model_witness :
    (MeanModel.mk [⟨fun ps => ps.map (fun _ => [(5:ℚ), 7]), [], []⟩]
        [1] 1 2 : MeanModel Unit (List (List ℚ))).evalRealVector [()] =
      .ok [[(5:ℚ), 7]] ∧
    (MeanModel.mk [⟨fun ps => ps.map (fun _ => 1), [], []⟩]
        [1] 1 3 : MeanModel Unit (List ℕ)).evalUnsignedInt [()] =
      .ok (oneHotMatrix 3 [1]) := by
  constructor
  · have h := (claim_C7_single_model (π := Unit) [()]).1
      (MeanModel.mk [⟨fun ps => ps.map (fun _ => [(5:ℚ), 7]), [], []⟩] [1] 1 2)
      ⟨fun ps => ps.map (fun _ => [(5:ℚ), 7]), [], []⟩
      rfl rfl rfl (by decide)
    simpa using h
  · have h := (claim_C7_single_model (π := Unit) [()]).2
      (MeanModel.mk [⟨fun ps => ps.map (fun _ => 1), [], []⟩] [1] 1 3)
      ⟨fun ps => ps.map (fun _ => 1), [], []⟩
      rfl rfl rfl (by decide) (by decide)
    simpa using h

/-- Claim C8: dimension mismatches between a sub-model's output and the
declared output size are checked during `eval` and reported: a successful
`eval` certifies every sub-model output matched the declared dimensions
(nothing was truncated, and the result has exactly the declared shape),
and any mismatch forces an error result, in both aggregation branches. -/
theorem claim_C8_dimension_checks {π : Type}
    (Mc : MeanModel π (List (List ℚ))) (Md : MeanModel π (List ℕ))
    (patterns : List π) :
    (∀ out, Mc.evalRealVector patterns = .ok out →
      (∀ mw ∈ Mc.m_models.zip Mc.m_weight,
        isMatrixOfDims (mw.1.evalB patterns) patterns.length Mc.m_outputDim) ∧
      isMatrixOfDims out patterns.length Mc.m_outputDim) ∧
    ((∃ mw ∈ Mc.m_models.zip Mc.m_weight,
        ¬ isMatrixOfDims (mw.1.evalB patterns) patterns.length Mc.m_outputDim) →
      ∃ e, Mc.evalRealVector patterns = .error e) ∧
    (∀ out, Md.evalUnsignedInt patterns = .ok out →
      (∀ mw ∈ Md.m_models.zip Md.m_weight,
        patterns.length ≤ (mw.1.evalB patterns).length ∧
        ∀ p < patterns.length,
          (mw.1.evalB patterns).getD p 0 < Md.m_outputDim) ∧
      isMatrixOfDims out patterns.length Md.m_outputDim) ∧
    ((∃ mw ∈ Md.m_models.zip Md.m_weight, ∃ p < patterns.length,
        ¬ (mw.1.evalB patterns).getD p 0 < Md.m_outputDim) →
      ∃ e, Md.evalUnsignedInt patterns = .error e) := by
  have hc : ∀ out, Mc.evalRealVector patterns = .ok out →
      (∀ mw ∈ Mc.m_models.zip Mc.m_weight,
        isMatrixOfDims (mw.1.evalB patterns) patterns.length Mc.m_outputDim) ∧
      isMatrixOfDims out patterns.length Mc.m_outputDim := by
    intro out h
    exact doEvalRealVector_ok_inv (Mc.m_models.zip Mc.m_weight)
      Mc.m_weightSum patterns patterns.length Mc.m_outputDim
      (zeroMatrix patterns.length Mc.m_outputDim) out
      (dims_zeroMatrix _ _) h
  have hd : ∀ out, Md.evalUnsignedInt patterns = .ok out →
      (∀ mw ∈ Md.m_models.zip Md.m_weight,
        patterns.length ≤ (mw.1.evalB patterns).length ∧
        ∀ p < patterns.length,
          (mw.1.evalB patterns).getD p 0 < Md.m_outputDim) ∧
      isMatrixOfDims out patterns.length Md.m_outputDim := by
    intro out h
    exact doEvalUnsignedInt_ok_inv (Md.m_models.zip Md.m_weight)
      Md.m_outputDim Md.m_weightSum patterns patterns.length
      (zeroMatrix patterns.length Md.m_outputDim) out
      (dims_zeroMatrix _ _) h
  refine ⟨hc, ?_, hd, ?_⟩
  · intro hmis
    cases h : Mc.evalRealVector patterns with
    | ok out =>
        exfalso
        obtain ⟨mw, hmw, hbad⟩ := hmis
        exact hbad ((hc out h).1 mw hmw)
    | error e => exact ⟨e, rfl⟩
  · intro hmis
    cases h : Md.evalUnsignedInt patterns with
    | ok out =>
        exfalso
        obtain ⟨mw, hmw, p, hp, hbad⟩ := hmis
        exact hbad (((hd out h).1 mw hmw).2 p hp)
    | error e => exact ⟨e, rfl⟩

/-- Witness for C8: a continuous sub-model outputting three columns into a
declared output size of two yields an error report; a discrete sub-model
voting class `5` with declared output size `2` yields an error report. -/
theorem claim_C8_dimension_checks_witness :
    (∃ e, (MeanModel.mk [⟨fun ps => ps.map (fun _ => [(1:ℚ), 2, 3]), [], []⟩]
        [1] 1 2 : MeanModel Unit (List (List ℚ))).evalRealVector [()] =
      .error e) ∧
    (∃ e, (MeanModel.mk [⟨fun ps => ps.map (fun _ => 5), [], []⟩]
        [1] 1 2 : MeanModel Unit (List ℕ)).evalUnsignedInt [()] =
      .error e) := by
  constructor
  · exact (claim_C8_dimension_checks
      (MeanModel.mk [⟨fun ps => ps.map (fun _ => [(1:ℚ), 2, 3]), [], []⟩] [1] 1 2)
      (MeanModel.mk [] [] 0 0 : MeanModel Unit (List ℕ)) [()]).2.1
      ⟨(⟨fun ps => ps.map (fun _ => [(1:ℚ), 2, 3]), [], []⟩, 1),
        by simp [List.zip_cons_cons], by decide⟩
  · exact (claim_C8_dimension_checks
      (MeanModel.mk [] [] 0 0 : MeanModel Unit (List (List ℚ)))
      (MeanModel.mk [⟨fun ps => ps.map (fun _ => 5), [], []⟩] [1] 1 2) [()]).2.2.2
      ⟨(⟨fun ps => ps.map (fun _ => 5), [], []⟩, 1),
        by simp [List.zip_cons_cons], 0, by decide, by decide⟩

/-- Claim C9: the three-argument overload `eval(patterns, outputs, state)`
returns exactly the two-argument result and leaves the state argument
unchanged, in both instantiations. -/
theorem claim_C9_state_overload {π σ : Type}
    (Mc : MeanModel π (List (List ℚ))) (Md : MeanModel π (List ℕ))
    (patterns : List π) (s : σ) :
    Mc.evalRealVectorState patterns s = (Mc.evalRealVector patterns, s) ∧
    Md.evalUnsignedIntState patterns s = (Md.evalUnsignedInt patterns, s) :=
  ⟨rfl, rfl⟩

/-- Claim C10: with no sub-models both shapes are the empty shape; with at
least one sub-model they are the first sub-model's shapes; `setOutputSize`
changes `outputSize` but neither shape, and the output shape need not
agree with the declared output size. -/
theorem claim_C10_shapes {π ω : Type} (M : MeanModel π ω) (d : ℕ) :
    (M.m_models = [] → M.inputShape = [] ∧ M.outputShape = []) ∧
    (∀ m rest, M.m_models = m :: rest →
      M.inputShape = m.inputShape ∧ M.outputShape = m.outputShape) ∧
    (M.setOutputSize d).inputShape = M.inputShape ∧
    (M.setOutputSize d).outputShape = M.outputShape ∧
    (M.setOutputSize d).outputSize = d ∧
    (∃ N : MeanModel Unit (List (List ℚ)),
      shapeSize N.outputShape ≠ N.outputSize) := by
  refine ⟨?_, ?_, rfl, rfl, rfl, ?_⟩
  · intro h
    constructor <;> simp [MeanModel.inputShape, MeanModel.outputShape, h]
  · intro m rest h
    constructor <;> simp [MeanModel.inputShape, MeanModel.outputShape, h]
  · refine ⟨MeanModel.mk [⟨fun _ => [], [], [3]⟩] [1] 1 2, ?_⟩
    decide

/-- Witness for C10 at an empty ensemble and a declared size update. -/
theorem claim_C10_shapes_witness :
    (MeanModel.mk [] [] 0 4 : MeanModel Unit (List (List ℚ))).inputShape = [] ∧
    (MeanModel.mk [] [] 0 4 : MeanModel Unit (List (List ℚ))).outputShape = [] ∧
    ((MeanModel.mk [] [] 0 4 :
      MeanModel Unit (List (List ℚ))).setOutputSize 9).outputSize = 9 := by
  obtain ⟨h1, _, _, _, h5, _⟩ := claim_C10_shapes
    (MeanModel.mk [] [] 0 4 : MeanModel Unit (List (List ℚ))) 9
  exact ⟨(h1 rfl).1, (h1 rfl).2, h5⟩

end Shark
